import Mathlib

/-!
Shallow embedding of the bitmap allocator (src/allocator.c, src/allocator.h).

`mapSize_t` is `uint32_t` (the header's default `MAPSIZE = 32`); machine
arithmetic is modelled as `Nat` with explicit `% 2 ^ 32` where the C value
can wrap.  A bitmap is the list of its `mapSize_t` words; a pointer into the
data region is modelled as its byte offset from `memory.head`.
-/

namespace BitmapAllocator

/-- `MAPSIZE`: bit width of one bitmap word (allocator.h default). -/
def MAPSIZE : Nat := 32

/-- `MAPSIZE_MAX = UINT32_MAX`, the scanner's not-found sentinel. -/
def MAPSIZE_MAX : Nat := 2 ^ 32 - 1

/-- `setBit`: `bitmap[index / MAPSIZE] |= (1ULL << (index % MAPSIZE))`. -/
def setBit (bitmap : List Nat) (index : Nat) : List Nat :=
  bitmap.set (index / MAPSIZE)
    (bitmap.getD (index / MAPSIZE) 0 ||| (1 <<< (index % MAPSIZE)))

/-- `clearBit`: `bitmap[index / MAPSIZE] &= ~(1ULL << (index % MAPSIZE))`;
the 64-bit complement of the mask, truncated to the stored `mapSize_t`,
is `2 ^ MAPSIZE - 1` with the mask bit removed. -/
def clearBit (bitmap : List Nat) (index : Nat) : List Nat :=
  bitmap.set (index / MAPSIZE)
    (bitmap.getD (index / MAPSIZE) 0 &&& ((2 ^ MAPSIZE - 1) ^^^ (1 <<< (index % MAPSIZE))))

/-- `getBit`: `(bitmap[index / MAPSIZE] & (1ULL << (index % MAPSIZE))) != 0`. -/
def getBit (bitmap : List Nat) (index : Nat) : Bool :=
  bitmap.getD (index / MAPSIZE) 0 &&& (1 <<< (index % MAPSIZE)) != 0

/-- Loop body of `findContiguousFreeBlocks`.  The C `for` loop runs `i`
from `0` to `size - 1`; `fuel = size - i` steps remain, so the loop is
structural recursion on `fuel`.  On success the C code returns
`i - num_blocks + 1` in `mapSize_t` arithmetic, i.e. mod `2 ^ 32`. -/
def findAux (num_blocks : Nat) (used : List Nat) (size : Nat) :
    Nat → Nat → Nat → Nat
  | 0, _, _ => MAPSIZE_MAX
  | fuel + 1, i, count =>
    if i < size then
      if getBit used i = false then
        if count + 1 = num_blocks then
          (i + 1 + (2 ^ MAPSIZE - num_blocks)) % 2 ^ MAPSIZE
        else findAux num_blocks used size fuel (i + 1) (count + 1)
      else findAux num_blocks used size fuel (i + 1) 0
    else MAPSIZE_MAX

/-- `findContiguousFreeBlocks(num_blocks, used, size)`. -/
def findContiguousFreeBlocks (num_blocks : Nat) (used : List Nat) (size : Nat) : Nat :=
  findAux num_blocks used size size 0 0

/-- Allocator state (`Allocator` in allocator.h, with the two nested structs
flattened): `bitmaps.used`, `bitmaps.heads`, `bitmaps.size`, `block_size`.
`memory.head` is the origin of pointer offsets and `memory.size` is
derived, so neither needs a field. -/
structure Allocator where
  used : List Nat
  heads : List Nat
  size : Nat
  block_size : Nat
deriving DecidableEq

/-- `num_blocks = (size + allocator->block_size - 1) / allocator->block_size`
computed in `mapSize_t` arithmetic (the sum wraps mod `2 ^ 32`). -/
def numBlocksOf (a : Allocator) (sz : Nat) : Nat :=
  (sz + a.block_size + (2 ^ MAPSIZE - 1)) % 2 ^ MAPSIZE / a.block_size

/-- The `allocate` marking loop: `for (i = 0; i < num_blocks; i++)
setBit(used, start_index + i)`. -/
def setUsedRange (bitmap : List Nat) (start n : Nat) : List Nat :=
  (List.range n).foldl (fun b k => setBit b (start + k)) bitmap

/-- `allocate(allocator, size)`; returns the byte offset of the block
(C returns `memory.head + start_index * block_size`). -/
def allocate (a : Allocator) (sz : Nat) : Option Nat × Allocator :=
  let num_blocks := numBlocksOf a sz
  let start_index := findContiguousFreeBlocks num_blocks a.used a.size
  if start_index = MAPSIZE_MAX then (none, a)
  else
    (some (start_index * a.block_size % 2 ^ MAPSIZE),
     { a with used := setUsedRange a.used start_index num_blocks,
              heads := setBit a.heads start_index })

/-- The `deallocate` walk:
`while (getBit(used, index) && !getBit(heads, index)) { clearBit(used, index++);
if (index >= size) break; }`.  Structural recursion on fuel; the caller
passes more fuel than the at most `size - index` iterations the loop makes. -/
def deallocLoop (heads : List Nat) (size : Nat) : List Nat → Nat → Nat → List Nat
  | used, _, 0 => used
  | used, index, fuel + 1 =>
    if getBit used index && !getBit heads index then
      let used1 := clearBit used index
      if index + 1 ≥ size then used1
      else deallocLoop heads size used1 (index + 1) fuel
    else used

/-- `deallocate(allocator, ptr)`; `ptr` is the byte offset of the pointer
from `memory.head`, and `index = (ptr - memory.head) / block_size` truncated
to `mapSize_t`. -/
def deallocate (a : Allocator) (ptr : Nat) : Bool × Allocator :=
  let index := ptr / a.block_size % 2 ^ MAPSIZE
  if !getBit a.heads index then (false, a)
  else
    let heads1 := clearBit a.heads index
    (true, { a with heads := heads1,
                    used := deallocLoop heads1 a.size a.used index (a.size + 1) })

/-- Layout computed by `initAllocator(allocator, block_size, memory, size)`:
all pointers recorded as byte offsets into the caller's buffer. -/
structure InitLayout where
  bitmaps_size : Nat
  used_off : Nat
  heads_off : Nat
  memory_head_off : Nat
  memory_size : Nat
  block_size : Nat
deriving DecidableEq

/-- `initAllocator`; `sizeof(mapSize_t) = 4` and every `mapSize_t`
computation wraps mod `2 ^ 32`. -/
def initAllocator (block_size : Nat) (size : Nat) : InitLayout :=
  let num_blocks := size / block_size
  let num_blocks_rounded := (num_blocks + MAPSIZE - 1) % 2 ^ MAPSIZE / MAPSIZE
  let bitmap_size := num_blocks_rounded * 2 * 4 % 2 ^ MAPSIZE
  let bitmaps_size := (size + (2 ^ MAPSIZE - bitmap_size)) % 2 ^ MAPSIZE / block_size
  { bitmaps_size := bitmaps_size
    used_off := 0
    heads_off := 0 + bitmap_size / 2
    memory_head_off := 0 + bitmap_size / 2 + bitmap_size / 2
    memory_size := bitmaps_size * block_size % 2 ^ MAPSIZE
    block_size := block_size }

/-- Representation well-formedness of an allocator state: `mapSize_t`
fields are in range, the data region's byte span fits `mapSize_t`, and the
word lists are long enough to hold `size` bits (which `initAllocator`
guarantees by construction). -/
def Wf (a : Allocator) : Prop :=
  0 < a.block_size ∧ a.block_size < 2 ^ MAPSIZE ∧ a.size < 2 ^ MAPSIZE ∧
    a.size * a.block_size < 2 ^ MAPSIZE ∧
    a.size ≤ a.used.length * MAPSIZE ∧ a.size ≤ a.heads.length * MAPSIZE

instance (a : Allocator) : Decidable (Wf a) := by
  unfold Wf; infer_instance

/-- The live allocations of a state, as a list of block-index intervals
`[p.1, p.2)`: pairwise disjoint nonempty runs inside the bitmap, with
`used` exactly their union and `heads` exactly their left endpoints. -/
def Represents (a : Allocator) (L : List (Nat × Nat)) : Prop :=
  (∀ p ∈ L, p.1 < p.2 ∧ p.2 ≤ a.size) ∧
    List.Pairwise (fun p q : Nat × Nat => p.2 ≤ q.1 ∨ q.2 ≤ p.1) L ∧
    (∀ i, getBit a.used i = true ↔ ∃ p ∈ L, p.1 ≤ i ∧ i < p.2) ∧
    (∀ i, getBit a.heads i = true ↔ ∃ p ∈ L, p.1 = i)

/-- States reachable from a freshly initialized allocator (both bitmaps
all-clear, per the zero-initialized-buffer precondition) by any sequence of
`allocate` and `deallocate` calls. -/
inductive Reachable : Allocator → Prop
  | base (a : Allocator) : Wf a → (∀ i, getBit a.used i = false) →
      (∀ i, getBit a.heads i = false) → Reachable a
  | alloc (a : Allocator) (sz : Nat) : Reachable a → Reachable (allocate a sz).2
  | dealloc (a : Allocator) (ptr : Nat) : Reachable a → Reachable (deallocate a ptr).2

/-- The spec's description of a satisfying run for the scanner
(§4.2): `num_blocks` clear bits starting at `s`, all inside the bitmap. -/
def goodRun (used : List Nat) (size num_blocks s : Nat) : Bool :=
  decide (s + num_blocks ≤ size) &&
    (List.range num_blocks).all fun j => !getBit used (s + j)

/-- The spec's bitmap-region byte count (§4.3 steps 2-3):
`ceil(rawBlockCount / mapWidth) * 2 * sizeof(mapSize_t)`, in exact
arithmetic. -/
def specBitmapRegionBytes (block_size size : Nat) : Nat :=
  (size / block_size + (MAPSIZE - 1)) / MAPSIZE * 2 * 4

/-- A fresh 4-block allocator with 16-byte blocks (both bitmaps clear). -/
def A1 : Allocator := { used := [0], heads := [0], size := 4, block_size := 16 }

/-- A 4-block allocator holding one live 2-block allocation at blocks 0-1. -/
def A2 : Allocator := { used := [3], heads := [1], size := 4, block_size := 16 }

/-- A 4-block allocator with all capacity taken by one allocation. -/
def A3 : Allocator := { used := [15], heads := [1], size := 4, block_size := 16 }

/-! ### Bit-level lemmas about the primitives -/

lemma getBit_eq_testBit (bm : List Nat) (j : Nat) :
    getBit bm j = (bm.getD (j / MAPSIZE) 0).testBit (j % MAPSIZE) := by
  unfold getBit
  rw [Nat.shiftLeft_eq, one_mul, Nat.and_two_pow]
  cases (bm.getD (j / MAPSIZE) 0).testBit (j % MAPSIZE) <;>
    simp [(Nat.two_pow_pos (j % MAPSIZE)).ne']

lemma bit_index_eq {i j : Nat} (hdiv : i / MAPSIZE = j / MAPSIZE)
    (hmod : i % MAPSIZE = j % MAPSIZE) : i = j :=
  calc i = MAPSIZE * (i / MAPSIZE) + i % MAPSIZE := (Nat.div_add_mod ..).symm
    _ = MAPSIZE * (j / MAPSIZE) + j % MAPSIZE := by rw [hdiv, hmod]
    _ = j := Nat.div_add_mod ..

lemma length_setBit (bm : List Nat) (i : Nat) : (setBit bm i).length = bm.length :=
  List.length_set ..

lemma length_clearBit (bm : List Nat) (i : Nat) : (clearBit bm i).length = bm.length :=
  List.length_set ..

lemma getD_set_self (l : List Nat) (k : Nat) (w : Nat) (h : k < l.length) :
    (l.set k w).getD k 0 = w := by
  simp [List.getD_eq_getElem?_getD, List.getElem?_set_self h]

lemma getD_set_ne (l : List Nat) (k k' : Nat) (w : Nat) (h : k ≠ k') :
    (l.set k w).getD k' 0 = l.getD k' 0 := by
  simp [List.getD_eq_getElem?_getD, List.getElem?_set_ne h]

lemma mod_MAPSIZE_lt (i : Nat) : i % MAPSIZE < MAPSIZE :=
  Nat.mod_lt _ (by decide)

lemma getBit_setBit_self (bm : List Nat) (i : Nat) (h : i / MAPSIZE < bm.length) :
    getBit (setBit bm i) i = true := by
  rw [getBit_eq_testBit]
  unfold setBit
  rw [getD_set_self _ _ _ h, Nat.shiftLeft_eq, one_mul, Nat.testBit_lor,
    Nat.testBit_two_pow_self]
  simp

lemma getBit_setBit_ne (bm : List Nat) (i j : Nat) (h : i ≠ j) :
    getBit (setBit bm i) j = getBit bm j := by
  rw [getBit_eq_testBit, getBit_eq_testBit]
  unfold setBit
  by_cases hw : i / MAPSIZE = j / MAPSIZE
  · have hm : i % MAPSIZE ≠ j % MAPSIZE := fun hc => h (bit_index_eq hw hc)
    rw [← hw]
    by_cases hl : i / MAPSIZE < bm.length
    · rw [getD_set_self _ _ _ hl, Nat.shiftLeft_eq, one_mul, Nat.testBit_lor,
        Nat.testBit_two_pow_of_ne hm, hw]
      simp
    · rw [List.set_eq_of_length_le (by omega), hw]
  · rw [getD_set_ne _ _ _ _ hw]

lemma getBit_clearBit_self (bm : List Nat) (i : Nat) :
    getBit (clearBit bm i) i = false := by
  rw [getBit_eq_testBit]
  unfold clearBit
  by_cases hl : i / MAPSIZE < bm.length
  · rw [getD_set_self _ _ _ hl, Nat.shiftLeft_eq, one_mul, Nat.testBit_land,
      Nat.testBit_xor, Nat.testBit_two_pow_sub_one, Nat.testBit_two_pow_self]
    simp [mod_MAPSIZE_lt]
  · rw [List.set_eq_of_length_le (by omega)]
    have : bm.getD (i / MAPSIZE) 0 = 0 := by
      simp [List.getD_eq_getElem?_getD, List.getElem?_eq_none (by omega : bm.length ≤ i / MAPSIZE)]
    rw [this, Nat.zero_testBit]

lemma getBit_clearBit_ne (bm : List Nat) (i j : Nat) (h : i ≠ j) :
    getBit (clearBit bm i) j = getBit bm j := by
  rw [getBit_eq_testBit, getBit_eq_testBit]
  unfold clearBit
  by_cases hw : i / MAPSIZE = j / MAPSIZE
  · have hm : i % MAPSIZE ≠ j % MAPSIZE := fun hc => h (bit_index_eq hw hc)
    rw [← hw]
    by_cases hl : i / MAPSIZE < bm.length
    · rw [getD_set_self _ _ _ hl, Nat.shiftLeft_eq, one_mul, Nat.testBit_land,
        Nat.testBit_xor, Nat.testBit_two_pow_sub_one, Nat.testBit_two_pow_of_ne hm, hw]
      simp [mod_MAPSIZE_lt]
    · rw [List.set_eq_of_length_le (by omega), hw]
  · rw [getD_set_ne _ _ _ _ hw]

/-- Bits of a one-word bitmap. -/
lemma getBit_single (w i : Nat) :
    getBit [w] i = (decide (i < MAPSIZE) && w.testBit i) := by
  rw [getBit_eq_testBit]
  by_cases h : i < MAPSIZE
  · rw [Nat.div_eq_of_lt h, Nat.mod_eq_of_lt h]
    simp [h, List.getD]
  · have h2 : 1 ≤ i / MAPSIZE := by
      rw [Nat.le_div_iff_mul_le (by decide : 0 < MAPSIZE)]
      omega
    rcases k : i / MAPSIZE with _ | n
    · omega
    · simp [h, List.getD]

lemma getBit_zero_word (i : Nat) : getBit [0] i = false := by
  rw [getBit_single]
  simp [Nat.zero_testBit]

/-! ### The marking loop of `allocate` -/

lemma setUsedRange_succ (bm : List Nat) (s n : Nat) :
    setUsedRange bm s (n + 1) = setBit (setUsedRange bm s n) (s + n) := by
  unfold setUsedRange
  rw [List.range_succ, List.foldl_append]
  rfl

lemma length_setUsedRange (bm : List Nat) (s n : Nat) :
    (setUsedRange bm s n).length = bm.length := by
  induction n with
  | zero => rfl
  | succ n ih => rw [setUsedRange_succ, length_setBit, ih]

lemma getBit_setUsedRange (bm : List Nat) (s n : Nat)
    (hlen : s + n ≤ bm.length * MAPSIZE) (j : Nat) :
    getBit (setUsedRange bm s n) j = (decide (s ≤ j ∧ j < s + n) || getBit bm j) := by
  induction n with
  | zero =>
    have h : ¬(s ≤ j ∧ j < s + 0) := by omega
    simp only [setUsedRange, List.range_zero, List.foldl_nil, decide_eq_false h,
      Bool.false_or]
  | succ n ih =>
    rw [setUsedRange_succ]
    by_cases hj : j = s + n
    · have hw : (s + n) / MAPSIZE < (setUsedRange bm s n).length := by
        rw [length_setUsedRange, Nat.div_lt_iff_lt_mul (by decide : 0 < MAPSIZE)]
        omega
      rw [hj, getBit_setBit_self _ _ hw]
      have h : s ≤ s + n ∧ s + n < s + (n + 1) := by omega
      simp [h]
    · rw [getBit_setBit_ne _ _ _ (fun hc => hj hc.symm), ih (by omega)]
      have h : (s ≤ j ∧ j < s + n) ↔ (s ≤ j ∧ j < s + (n + 1)) := by omega
      rw [decide_eq_decide.mpr h]

/-! ### Correctness of the free-run scanner -/

lemma findAux_spec {num_blocks : Nat} (used : List Nat) {size : Nat}
    (hnb : 1 ≤ num_blocks) (hsize : size < 2 ^ MAPSIZE) :
    ∀ fuel i count, size ≤ fuel + i → count < num_blocks → count ≤ i → i ≤ size →
    (∀ j, i - count ≤ j → j < i → getBit used j = false) →
    (i - count = 0 ∨ getBit used (i - count - 1) = true) →
    (∀ s, s + num_blocks ≤ i → ∃ j, s ≤ j ∧ j < s + num_blocks ∧ getBit used j = true) →
    (findAux num_blocks used size fuel i count = MAPSIZE_MAX ∧
      ∀ s, s + num_blocks ≤ size →
        ∃ j, s ≤ j ∧ j < s + num_blocks ∧ getBit used j = true) ∨
    (findAux num_blocks used size fuel i count + num_blocks ≤ size ∧
      (∀ j, findAux num_blocks used size fuel i count ≤ j →
        j < findAux num_blocks used size fuel i count + num_blocks →
        getBit used j = false) ∧
      ∀ s, s < findAux num_blocks used size fuel i count →
        ∃ j, s ≤ j ∧ j < s + num_blocks ∧ getBit used j = true) := by
  intro fuel
  induction fuel with
  | zero =>
    intro i count hfuel _ _ hi _ _ hwin
    left
    refine ⟨rfl, fun s hs => hwin s (by omega)⟩
  | succ fuel ih =>
    intro i count hfuel hcount hci hi hrun hstop hwin
    by_cases hlt : i < size
    · rw [findAux, if_pos hlt]
      by_cases hbit : getBit used i = false
      · rw [if_pos hbit]
        by_cases hhit : count + 1 = num_blocks
        · rw [if_pos hhit]
          right
          have hle : num_blocks ≤ i + 1 := by omega
          have hval : (i + 1 + (2 ^ MAPSIZE - num_blocks)) % 2 ^ MAPSIZE
              = i + 1 - num_blocks := by
            have h1 : i + 1 + (2 ^ MAPSIZE - num_blocks)
                = 2 ^ MAPSIZE + (i + 1 - num_blocks) := by omega
            rw [h1, Nat.add_mod_left, Nat.mod_eq_of_lt (by omega)]
          rw [hval]
          refine ⟨by omega, fun j hj1 hj2 => ?_, fun s hs => ?_⟩
          · by_cases hji : j = i
            · rw [hji]; exact hbit
            · exact hrun j (by omega) (by omega)
          · exact hwin s (by omega)
        · rw [if_neg hhit]
          refine ih (i + 1) (count + 1) (by omega) (by omega) (by omega) (by omega)
            (fun j hj1 hj2 => ?_) (by
              rcases hstop with h | h
              · left; omega
              · right
                have : i + 1 - (count + 1) - 1 = i - count - 1 := by omega
                rw [this]; exact h)
            (fun s hs => ?_)
          · by_cases hji : j = i
            · rw [hji]; exact hbit
            · exact hrun j (by omega) (by omega)
          · by_cases hsi : s + num_blocks ≤ i
            · exact hwin s hsi
            · have hs' : s + num_blocks = i + 1 := by omega
              have hslt : s < i - count := by omega
              have hnz : i - count ≠ 0 := by omega
              rcases hstop with h | h
              · omega
              · exact ⟨i - count - 1, by omega, by omega, h⟩
      · rw [if_neg hbit]
        have hbit' : getBit used i = true := by
          cases h : getBit used i
          · exact absurd h hbit
          · rfl
        refine ih (i + 1) 0 (by omega) (by omega) (by omega) (by omega)
          (fun j hj1 hj2 => by omega) (by
            right
            have : i + 1 - 0 - 1 = i := by omega
            rw [this]; exact hbit')
          (fun s hs => ?_)
        by_cases hsi : s + num_blocks ≤ i
        · exact hwin s hsi
        · exact ⟨i, by omega, by omega, hbit'⟩
    · rw [findAux, if_neg hlt]
      left
      exact ⟨rfl, fun s hs => hwin s (by omega)⟩

/-- Top-level scanner correctness: either not-found and no window of
`num_blocks` clear bits fits, or the result is the least start of such a
window. -/
lemma findContiguousFreeBlocks_spec {num_blocks : Nat} (used : List Nat) {size : Nat}
    (hnb : 1 ≤ num_blocks) (hsize : size < 2 ^ MAPSIZE) :
    (findContiguousFreeBlocks num_blocks used size = MAPSIZE_MAX ∧
      ∀ s, s + num_blocks ≤ size →
        ∃ j, s ≤ j ∧ j < s + num_blocks ∧ getBit used j = true) ∨
    (findContiguousFreeBlocks num_blocks used size + num_blocks ≤ size ∧
      (∀ j, findContiguousFreeBlocks num_blocks used size ≤ j →
        j < findContiguousFreeBlocks num_blocks used size + num_blocks →
        getBit used j = false) ∧
      ∀ s, s < findContiguousFreeBlocks num_blocks used size →
        ∃ j, s ≤ j ∧ j < s + num_blocks ∧ getBit used j = true) :=
  findAux_spec used hnb hsize size 0 0 (by omega) (by omega) (by omega) (by omega)
    (fun j hj1 hj2 => by omega) (Or.inl rfl) (fun s hs => by omega)

/-- The scanner never succeeds for a zero-length request. -/
lemma findAux_zero (used : List Nat) (size : Nat) :
    ∀ fuel i count, findAux 0 used size fuel i count = MAPSIZE_MAX := by
  intro fuel
  induction fuel with
  | zero => intro i count; rfl
  | succ fuel ih =>
    intro i count
    rw [findAux]
    by_cases hlt : i < size
    · rw [if_pos hlt]
      by_cases hbit : getBit used i = false
      · rw [if_pos hbit, if_neg (by omega)]
        exact ih ..
      · rw [if_neg hbit]
        exact ih ..
    · rw [if_neg hlt]

lemma findContiguousFreeBlocks_zero (used : List Nat) (size : Nat) :
    findContiguousFreeBlocks 0 used size = MAPSIZE_MAX :=
  findAux_zero ..

/-- A request longer than the whole bitmap is never satisfied. -/
lemma findAux_gt (used : List Nat) {size num_blocks : Nat} :
    ∀ fuel i count, count + (size - i) < num_blocks →
      findAux num_blocks used size fuel i count = MAPSIZE_MAX := by
  intro fuel
  induction fuel with
  | zero => intro i count _; rfl
  | succ fuel ih =>
    intro i count h
    rw [findAux]
    by_cases hlt : i < size
    · rw [if_pos hlt]
      by_cases hbit : getBit used i = false
      · rw [if_pos hbit, if_neg (by omega)]
        exact ih _ _ (by omega)
      · rw [if_neg hbit]
        exact ih _ _ (by omega)
    · rw [if_neg hlt]

lemma findContiguousFreeBlocks_gt (used : List Nat) {size num_blocks : Nat}
    (h : size < num_blocks) :
    findContiguousFreeBlocks num_blocks used size = MAPSIZE_MAX :=
  findAux_gt used _ _ _ (by omega)

/-! ### The forward walk of `deallocate` -/

lemma length_deallocLoop (heads : List Nat) (size : Nat) :
    ∀ fuel used i, (deallocLoop heads size used i fuel).length = used.length := by
  intro fuel
  induction fuel with
  | zero => intro used i; rfl
  | succ fuel ih =>
    intro used i
    rw [deallocLoop]
    by_cases hc : (getBit used i && !getBit heads i) = true
    · rw [if_pos hc]
      by_cases hend : i + 1 ≥ size
      · rw [if_pos hend, length_clearBit]
      · rw [if_neg hend, ih, length_clearBit]
    · rw [if_neg hc]

/-- Exact effect of the walk: it clears the span `[i, e)` where `e` is the
first position at or after `i` that fails the loop condition (or the end of
the bitmap), and touches nothing else. -/
lemma deallocLoop_char (heads : List Nat) (size : Nat) :
    ∀ fuel (used : List Nat) (i : Nat), i < size → size - i < fuel →
    ∃ e, i ≤ e ∧ e ≤ size ∧
      (∀ j, i ≤ j → j < e → getBit used j = true ∧ getBit heads j = false) ∧
      (e = size ∨ getBit used e = false ∨ getBit heads e = true) ∧
      (∀ j, getBit (deallocLoop heads size used i fuel) j
         = if i ≤ j ∧ j < e then false else getBit used j) := by
  intro fuel
  induction fuel with
  | zero => intro used i _ hfuel; omega
  | succ fuel ih =>
    intro used i hi hfuel
    rw [deallocLoop]
    by_cases hc : (getBit used i && !getBit heads i) = true
    · rw [if_pos hc]
      have hu : getBit used i = true := by
        rcases Bool.and_eq_true .. |>.mp hc with ⟨h1, _⟩
        exact h1
      have hh : getBit heads i = false := by
        rcases Bool.and_eq_true .. |>.mp hc with ⟨_, h2⟩
        cases hv : getBit heads i
        · rfl
        · rw [hv] at h2; exact absurd h2 (by decide)
      by_cases hend : i + 1 ≥ size
      · rw [if_pos hend]
        refine ⟨i + 1, by omega, by omega, fun j hj1 hj2 => ?_, by omega, fun j => ?_⟩
        · have : j = i := by omega
          rw [this]; exact ⟨hu, hh⟩
        · by_cases hji : j = i
          · rw [hji, getBit_clearBit_self, if_pos (by omega)]
          · rw [getBit_clearBit_ne _ _ _ (fun hc2 => hji hc2.symm),
              if_neg (by omega)]
      · rw [if_neg hend]
        obtain ⟨e, he1, he2, hrun, hstop, hbits⟩ :=
          ih (clearBit used i) (i + 1) (by omega) (by omega)
        refine ⟨e, by omega, he2, fun j hj1 hj2 => ?_, ?_, fun j => ?_⟩
        · by_cases hji : j = i
          · rw [hji]; exact ⟨hu, hh⟩
          · obtain ⟨h1, h2⟩ := hrun j (by omega) hj2
            rw [getBit_clearBit_ne _ _ _ (fun hc2 => hji hc2.symm)] at h1
            exact ⟨h1, h2⟩
        · rcases hstop with h | h | h
          · exact Or.inl h
          · rw [getBit_clearBit_ne _ _ _ (by omega)] at h
            exact Or.inr (Or.inl h)
          · exact Or.inr (Or.inr h)
        · rw [hbits j]
          by_cases hji : j = i
          · rw [hji, if_neg (by omega), getBit_clearBit_self, if_pos (by omega)]
          · rw [getBit_clearBit_ne _ _ _ (fun hc2 => hji hc2.symm),
              if_congr (show (i + 1 ≤ j ∧ j < e) ↔ (i ≤ j ∧ j < e) by omega) rfl rfl]
    · rw [if_neg hc]
      have hstop : getBit used i = false ∨ getBit heads i = true := by
        cases h1 : getBit used i
        · exact Or.inl rfl
        · cases h2 : getBit heads i
          · rw [h1, h2] at hc; exact absurd rfl hc
          · exact Or.inr rfl
      exact ⟨i, by omega, by omega, fun j hj1 hj2 => by omega,
        Or.inr hstop, fun j => by rw [if_neg (by omega)]⟩

/-- The stop position of a forward walk is unique. -/
lemma walk_stop_unique {size i e1 e2 : Nat} {C : Nat → Prop}
    (h1a : i ≤ e1) (h1b : e1 ≤ size) (h2a : i ≤ e2) (h2b : e2 ≤ size)
    (hr1 : ∀ j, i ≤ j → j < e1 → C j) (hr2 : ∀ j, i ≤ j → j < e2 → C j)
    (hs1 : e1 = size ∨ ¬C e1) (hs2 : e2 = size ∨ ¬C e2) : e1 = e2 := by
  by_contra hne
  rcases Nat.lt_or_ge e1 e2 with h | h
  · have hc := hr2 e1 (by omega) h
    rcases hs1 with h' | h'
    · omega
    · exact h' hc
  · have hlt : e2 < e1 := by omega
    have hc := hr1 e2 (by omega) hlt
    rcases hs2 with h' | h'
    · omega
    · exact h' hc

/-- Full characterization of a successful `deallocate`: with `i` the
computed block index, it returns true, clears `heads[i]`, and clears
exactly the `used` span from `i` up to the first stop position `e`. -/
lemma deallocate_spec (a : Allocator) (ptr : Nat) (i : Nat)
    (hi : i = ptr / a.block_size % 2 ^ MAPSIZE) (hidx : i < a.size)
    (hhead : getBit a.heads i = true) :
    ∃ e, i ≤ e ∧ e ≤ a.size ∧
      (∀ j, i ≤ j → j < e →
        getBit a.used j = true ∧ (i < j → getBit a.heads j = false)) ∧
      (e = a.size ∨ getBit a.used e = false ∨ (i < e ∧ getBit a.heads e = true)) ∧
      deallocate a ptr =
        (true, { a with heads := clearBit a.heads i,
                        used := deallocLoop (clearBit a.heads i) a.size a.used i
                          (a.size + 1) }) ∧
      (∀ j, getBit (deallocate a ptr).2.used j =
        if i ≤ j ∧ j < e then false else getBit a.used j) ∧
      (∀ j, getBit (deallocate a ptr).2.heads j =
        if j = i then false else getBit a.heads j) := by
  have hheads1 : ∀ j, getBit (clearBit a.heads i) j
      = if j = i then false else getBit a.heads j := by
    intro j
    by_cases hji : j = i
    · rw [hji, getBit_clearBit_self, if_pos rfl]
    · rw [getBit_clearBit_ne _ _ _ (fun hc => hji hc.symm), if_neg hji]
  have hdef : deallocate a ptr =
      (true, { a with heads := clearBit a.heads i,
                      used := deallocLoop (clearBit a.heads i) a.size a.used i
                        (a.size + 1) }) := by
    rw [deallocate, ← hi, hhead]
    rfl
  obtain ⟨e, he1, he2, hrun, hstop, hbits⟩ :=
    deallocLoop_char (clearBit a.heads i) a.size (a.size + 1) a.used i hidx (by omega)
  refine ⟨e, he1, he2, fun j hj1 hj2 => ?_, ?_, hdef, fun j => ?_, fun j => ?_⟩
  · obtain ⟨h1, h2⟩ := hrun j hj1 hj2
    rw [hheads1 j] at h2
    refine ⟨h1, fun hij => ?_⟩
    rw [if_neg (by omega)] at h2
    exact h2
  · rcases hstop with h | h | h
    · exact Or.inl h
    · exact Or.inr (Or.inl h)
    · rw [hheads1 e] at h
      by_cases hei : e = i
      · rw [if_pos hei] at h
        exact absurd h (by decide)
      · rw [if_neg hei] at h
        exact Or.inr (Or.inr ⟨by omega, h⟩)
  · rw [hdef]
    exact hbits j
  · rw [hdef]
    exact hheads1 j

/-- A `deallocate` whose computed index has a clear `heads` bit fails and
leaves the state untouched. -/
lemma deallocate_fail (a : Allocator) (ptr : Nat)
    (hhead : getBit a.heads (ptr / a.block_size % 2 ^ MAPSIZE) = false) :
    deallocate a ptr = (false, a) := by
  rw [deallocate, hhead]
  rfl

/-! ### Characterization of `allocate` -/

lemma allocate_none (a : Allocator) (sz : Nat)
    (h : findContiguousFreeBlocks (numBlocksOf a sz) a.used a.size = MAPSIZE_MAX) :
    allocate a sz = (none, a) := by
  rw [allocate]
  simp only [h, if_pos]

/-- A successful `allocate` happened at the least free window the scanner
found: the window is free, in range, and the new state sets exactly its
`used` bits and one `heads` bit at its start. -/
lemma allocate_some (a : Allocator) (sz : Nat) {p : Nat} {a2 : Allocator}
    (hW : Wf a) (h : allocate a sz = (some p, a2)) :
    ∃ s nb, nb = numBlocksOf a sz ∧ s = findContiguousFreeBlocks nb a.used a.size ∧
      1 ≤ nb ∧ s + nb ≤ a.size ∧
      (∀ j, s ≤ j → j < s + nb → getBit a.used j = false) ∧
      p = s * a.block_size ∧
      a2 = { a with used := setUsedRange a.used s nb, heads := setBit a.heads s } ∧
      (∀ j, getBit a2.used j = (decide (s ≤ j ∧ j < s + nb) || getBit a.used j)) ∧
      (∀ j, getBit a2.heads j = (decide (j = s) || getBit a.heads j)) := by
  obtain ⟨hbs, hbs32, hsize, hregion, hulen, hhlen⟩ := hW
  set nb := numBlocksOf a sz with hnb
  set s := findContiguousFreeBlocks nb a.used a.size with hs
  have hnotmax : s ≠ MAPSIZE_MAX := by
    intro hmax
    have hfind : findContiguousFreeBlocks (numBlocksOf a sz) a.used a.size
        = MAPSIZE_MAX := hmax
    rw [allocate_none a sz hfind] at h
    simp at h
  have hnb1 : 1 ≤ nb := by
    by_contra hc
    apply hnotmax
    have h0 : nb = 0 := by omega
    show findContiguousFreeBlocks nb a.used a.size = MAPSIZE_MAX
    rw [h0]
    exact findContiguousFreeBlocks_zero a.used a.size
  obtain hspec := findContiguousFreeBlocks_spec a.used hnb1 hsize
  rw [← hs] at hspec
  rcases hspec with ⟨hmax, _⟩ | ⟨hle, hclear, _⟩
  · exact absurd hmax hnotmax
  · have hdef : allocate a sz = (some (s * a.block_size % 2 ^ MAPSIZE),
        { a with used := setUsedRange a.used s nb, heads := setBit a.heads s }) := by
      rw [allocate]
      simp only [← hnb, ← hs, if_neg hnotmax]
    have hmul : s * a.block_size < 2 ^ MAPSIZE := by
      have h1 : s * a.block_size ≤ (a.size - 1) * a.block_size :=
        Nat.mul_le_mul_right _ (by omega)
      have h2 : (a.size - 1) * a.block_size < a.size * a.block_size :=
        (Nat.mul_lt_mul_right hbs).mpr (by omega)
      omega
    rw [hdef] at h
    have h1 := congrArg Prod.fst h
    have h2 := congrArg Prod.snd h
    simp only at h1 h2
    have hp : p = s * a.block_size := by
      rw [← Option.some_inj.mp h1, Nat.mod_eq_of_lt hmul]
    have ha2 := h2.symm
    refine ⟨s, nb, rfl, rfl, hnb1, hle, hclear, hp, ha2, fun j => ?_, fun j => ?_⟩
    · rw [ha2]
      exact getBit_setUsedRange a.used s nb (by omega) j
    · rw [ha2]
      by_cases hj : j = s
      · rw [hj, getBit_setBit_self _ _ (by
          rw [Nat.div_lt_iff_lt_mul (by decide : 0 < MAPSIZE)]
          omega)]
        simp
      · rw [getBit_setBit_ne _ _ _ (fun hc => hj hc.symm)]
        simp [hj]

/-! ### Consequences of the interval abstraction -/

lemma disjoint_symm :
    Symmetric (fun p q : Nat × Nat => p.2 ≤ q.1 ∨ q.2 ≤ p.1) :=
  fun _ _ h => h.symm

lemma rep_disjoint {a : Allocator} {L : List (Nat × Nat)} (hR : Represents a L)
    {p q : Nat × Nat} (hp : p ∈ L) (hq : q ∈ L) (hne : p ≠ q) :
    p.2 ≤ q.1 ∨ q.2 ≤ p.1 :=
  hR.2.1.forall disjoint_symm hp hq hne

lemma rep_heads_imp_used {a : Allocator} {L : List (Nat × Nat)}
    (hR : Represents a L) (i : Nat) (h : getBit a.heads i = true) :
    getBit a.used i = true := by
  obtain ⟨p, hp, hp1⟩ := (hR.2.2.2 i).mp h
  exact (hR.2.2.1 i).mpr ⟨p, hp, by omega, hp1 ▸ (hR.1 p hp).1⟩

lemma rep_used_lt_size {a : Allocator} {L : List (Nat × Nat)}
    (hR : Represents a L) (i : Nat) (h : getBit a.used i = true) : i < a.size := by
  obtain ⟨p, hp, hp1, hp2⟩ := (hR.2.2.1 i).mp h
  have := (hR.1 p hp).2
  omega

lemma rep_span_start_head {a : Allocator} {L : List (Nat × Nat)}
    (hR : Represents a L) (i : Nat) (h : getBit a.used i = true)
    (hlo : i = 0 ∨ getBit a.used (i - 1) = false) : getBit a.heads i = true := by
  obtain ⟨p, hp, hp1, hp2⟩ := (hR.2.2.1 i).mp h
  by_cases hstart : p.1 = i
  · exact (hR.2.2.2 i).mpr ⟨p, hp, hstart⟩
  · have hprev : getBit a.used (i - 1) = true :=
      (hR.2.2.1 (i - 1)).mpr ⟨p, hp, by omega, by omega⟩
    rcases hlo with h0 | hfalse
    · omega
    · rw [hprev] at hfalse
      exact absurd hfalse (by decide)

lemma rep_no_interior_head {a : Allocator} {L : List (Nat × Nat)}
    (hR : Represents a L) {p : Nat × Nat} (hp : p ∈ L) (j : Nat)
    (h1 : p.1 < j) (h2 : j < p.2) : getBit a.heads j = false := by
  cases hh : getBit a.heads j
  · rfl
  · obtain ⟨q, hq, hq1⟩ := (hR.2.2.2 j).mp hh
    have hqlt := (hR.1 q hq).1
    have hne : q ≠ p := fun hc => by rw [hc] at hq1; omega
    rcases rep_disjoint hR hq hp hne with hd | hd <;> omega

lemma rep_boundary_head {a : Allocator} {L : List (Nat × Nat)}
    (hR : Represents a L) {p : Nat × Nat} (hp : p ∈ L)
    (h : getBit a.used p.2 = true) : getBit a.heads p.2 = true := by
  obtain ⟨q, hq, hq1, hq2⟩ := (hR.2.2.1 p.2).mp h
  have hplt := (hR.1 p hp).1
  have hne : q ≠ p := fun hc => by rw [hc] at hq2; omega
  rcases rep_disjoint hR hq hp hne with hd | hd
  · omega
  · have hq1' : q.1 = p.2 := by omega
    exact (hR.2.2.2 p.2).mpr ⟨q, hq, hq1'⟩

lemma pairwise_rel_self_of_mem_erase {α : Type} [BEq α] [LawfulBEq α]
    {R : α → α → Prop} :
    ∀ {l : List α} {p : α}, l.Pairwise R → p ∈ l.erase p → R p p := by
  intro l
  induction l with
  | nil => intro p _ hmem; exact absurd hmem (List.not_mem_nil p)
  | cons x t ih =>
    intro p hpw hmem
    by_cases hx : x = p
    · rw [hx] at hmem
      rw [List.erase_cons_head] at hmem
      have hr := (List.pairwise_cons.mp hpw).1 p hmem
      rw [hx] at hr
      exact hr
    · rw [List.erase_cons_tail (by simp [hx])] at hmem
      rcases List.mem_cons.mp hmem with h | h
      · exact absurd h.symm hx
      · exact ih (List.pairwise_cons.mp hpw).2 h

/-! ### Preservation of the abstraction by the two operations -/

lemma alloc_preserves (a : Allocator) (sz : Nat) (hW : Wf a)
    (L : List (Nat × Nat)) (hR : Represents a L) :
    Wf (allocate a sz).2 ∧ ∃ L2, Represents (allocate a sz).2 L2 := by
  by_cases hfind : findContiguousFreeBlocks (numBlocksOf a sz) a.used a.size
      = MAPSIZE_MAX
  · rw [allocate_none a sz hfind]
    exact ⟨hW, L, hR⟩
  · rcases hres : allocate a sz with ⟨o, a2⟩
    cases o with
    | none =>
      have hfst : (allocate a sz).1
          = some (findContiguousFreeBlocks (numBlocksOf a sz) a.used a.size
            * a.block_size % 2 ^ MAPSIZE) := by
        rw [allocate]
        simp only [if_neg hfind]
      rw [hres] at hfst
      simp at hfst
    | some p =>
      obtain ⟨s, nb, hnb, hs, hnb1, hle, hclear, hp, ha2, hu, hh⟩ :=
        allocate_some a sz hW hres
      have hsize2 : a2.size = a.size := by rw [ha2]
      have hbs2 : a2.block_size = a.block_size := by rw [ha2]
      have hulen2 : a2.used.length = a.used.length := by
        rw [ha2]
        exact length_setUsedRange ..
      have hhlen2 : a2.heads.length = a.heads.length := by
        rw [ha2]
        exact length_setBit ..
      show Wf a2 ∧ ∃ L2, Represents a2 L2
      refine ⟨?_, (s, s + nb) :: L, ?_, ?_, ?_, ?_⟩
      · unfold Wf
        rw [hsize2, hbs2, hulen2, hhlen2]
        exact hW
      · intro q hq
        rcases List.mem_cons.mp hq with hcase | hcase
        · rw [hcase]
          refine ⟨?_, ?_⟩
          · show s < s + nb
            omega
          · show s + nb ≤ a2.size
            omega
        · have hq2 := hR.1 q hcase
          rw [hsize2]
          exact hq2
      · refine List.pairwise_cons.mpr ⟨fun q hq => ?_, hR.2.1⟩
        by_contra hcon
        push_neg at hcon
        obtain ⟨h1, h2⟩ := hcon
        have hq12 := (hR.1 q hq).1
        have hused : getBit a.used (max s q.1) = true :=
          (hR.2.2.1 (max s q.1)).mpr ⟨q, hq, by omega, by omega⟩
        have hfree := hclear (max s q.1) (by omega) (by omega)
        rw [hused] at hfree
        exact absurd hfree (by decide)
      · intro i
        rw [hu i, Bool.or_eq_true, decide_eq_true_eq, hR.2.2.1 i]
        constructor
        · rintro (⟨h1, h2⟩ | ⟨q, hq, hq1, hq2⟩)
          · exact ⟨(s, s + nb), List.mem_cons_self .., h1, h2⟩
          · exact ⟨q, List.mem_cons_of_mem _ hq, hq1, hq2⟩
        · rintro ⟨q, hq, hq1, hq2⟩
          rcases List.mem_cons.mp hq with hcase | hcase
          · left
            rw [hcase] at hq1 hq2
            exact ⟨hq1, hq2⟩
          · right
            exact ⟨q, hcase, hq1, hq2⟩
      · intro i
        rw [hh i, Bool.or_eq_true, decide_eq_true_eq, hR.2.2.2 i]
        constructor
        · rintro (h1 | ⟨q, hq, hq1⟩)
          · exact ⟨(s, s + nb), List.mem_cons_self .., h1.symm⟩
          · exact ⟨q, List.mem_cons_of_mem _ hq, hq1⟩
        · rintro ⟨q, hq, hq1⟩
          rcases List.mem_cons.mp hq with hcase | hcase
          · left
            rw [hcase] at hq1
            exact hq1.symm
          · right
            exact ⟨q, hcase, hq1⟩

lemma dealloc_preserves (a : Allocator) (ptr : Nat) (hW : Wf a)
    (L : List (Nat × Nat)) (hR : Represents a L) :
    Wf (deallocate a ptr).2 ∧ ∃ L2, Represents (deallocate a ptr).2 L2 := by
  cases hh : getBit a.heads (ptr / a.block_size % 2 ^ MAPSIZE)
  · rw [deallocate_fail a ptr hh]
    exact ⟨hW, L, hR⟩
  · obtain ⟨q, hq, hq1⟩ := (hR.2.2.2 _).mp hh
    have hq12 := (hR.1 q hq).1
    have hqs := (hR.1 q hq).2
    obtain ⟨e, he1, he2, hrun, hstop, hdef, hu, hh2⟩ :=
      deallocate_spec a ptr q.1 hq1 (by omega) (by rw [hq1]; exact hh)
    have heq : e = q.2 := by
      refine walk_stop_unique (C := fun j => getBit a.used j = true ∧
        (q.1 < j → getBit a.heads j = false)) he1 he2 (by omega) hqs hrun
        (fun j hj1 hj2 => ⟨(hR.2.2.1 j).mpr ⟨q, hq, hj1, hj2⟩,
          fun hlt => rep_no_interior_head hR hq j hlt hj2⟩) ?_ ?_
      · rcases hstop with hcase | hcase | hcase
        · exact Or.inl hcase
        · refine Or.inr (fun hC => ?_)
          rw [hC.1] at hcase
          exact absurd hcase (by decide)
        · refine Or.inr (fun hC => ?_)
          rw [hC.2 hcase.1] at hcase
          exact absurd hcase.2 (by decide)
      · by_cases hq2s : q.2 = a.size
        · exact Or.inl hq2s
        · refine Or.inr (fun hC => ?_)
          have hb := rep_boundary_head hR hq hC.1
          rw [hC.2 hq12] at hb
          exact absurd hb (by decide)
    subst heq
    refine ⟨?_, L.erase q, ?_, ?_, ?_, ?_⟩
    · rw [hdef]
      show Wf _
      unfold Wf
      simp only [length_deallocLoop, length_clearBit]
      exact hW
    · intro r hr
      have hsize : (deallocate a ptr).2.size = a.size := by
        rw [hdef]
      rw [hsize]
      exact hR.1 r (List.mem_of_mem_erase hr)
    · exact hR.2.1.sublist (List.erase_sublist ..)
    · intro i
      rw [hu i]
      by_cases hin : q.1 ≤ i ∧ i < q.2
      · rw [if_pos hin]
        constructor
        · intro hfalse
          exact absurd hfalse (by decide)
        · rintro ⟨r, hr, hr1, hr2⟩
          by_cases hrq : r = q
          · rw [hrq] at hr
            have hRR := pairwise_rel_self_of_mem_erase hR.2.1 hr
            omega
          · have hd := rep_disjoint hR (List.mem_of_mem_erase hr) hq hrq
            omega
      · rw [if_neg hin]
        rw [hR.2.2.1 i]
        constructor
        · rintro ⟨r, hr, hr1, hr2⟩
          have hrq : r ≠ q := fun hc => by rw [hc] at hr1 hr2; omega
          exact ⟨r, (List.mem_erase_of_ne hrq).mpr hr, hr1, hr2⟩
        · rintro ⟨r, hr, hr1, hr2⟩
          exact ⟨r, List.mem_of_mem_erase hr, hr1, hr2⟩
    · intro i
      rw [hh2 i]
      by_cases hiq : i = q.1
      · rw [if_pos hiq]
        constructor
        · intro hfalse
          exact absurd hfalse (by decide)
        · rintro ⟨r, hr, hr1⟩
          by_cases hrq : r = q
          · rw [hrq] at hr
            have hRR := pairwise_rel_self_of_mem_erase hR.2.1 hr
            omega
          · have hd := rep_disjoint hR (List.mem_of_mem_erase hr) hq hrq
            have hr12 := (hR.1 r (List.mem_of_mem_erase hr)).1
            omega
      · rw [if_neg hiq]
        rw [hR.2.2.2 i]
        constructor
        · rintro ⟨r, hr, hr1⟩
          have hrq : r ≠ q := fun hc => by rw [hc] at hr1; exact hiq hr1.symm
          exact ⟨r, (List.mem_erase_of_ne hrq).mpr hr, hr1⟩
        · rintro ⟨r, hr, hr1⟩
          exact ⟨r, List.mem_of_mem_erase hr, hr1⟩

/-- Every reachable state is well-formed and abstracts to a list of
disjoint allocation runs. -/
lemma reachable_inv (a : Allocator) (h : Reachable a) :
    Wf a ∧ ∃ L, Represents a L := by
  induction h with
  | base a hW hu hh =>
    refine ⟨hW, [], by simp [Represents], List.Pairwise.nil, fun i => ?_, fun i => ?_⟩
    · rw [hu i]
      simp
    · rw [hh i]
      simp
  | alloc a sz hr ih =>
    obtain ⟨hW, L, hR⟩ := ih
    exact alloc_preserves a sz hW L hR
  | dealloc a ptr hr ih =>
    obtain ⟨hW, L, hR⟩ := ih
    exact dealloc_preserves a ptr hW L hR

/-! ### Concrete representation facts for the witness states -/

lemma represents_empty (a : Allocator) (hu : ∀ i, getBit a.used i = false)
    (hh : ∀ i, getBit a.heads i = false) : Represents a [] := by
  refine ⟨by simp, List.Pairwise.nil, fun i => ?_, fun i => ?_⟩
  · rw [hu i]
    simp
  · rw [hh i]
    simp

lemma represents_A1 : Represents A1 [] :=
  represents_empty A1 (fun i => getBit_zero_word i) (fun i => getBit_zero_word i)

lemma represents_single (a : Allocator) (b : Nat) (hb1 : 0 < b) (hb2 : b ≤ a.size)
    (hu : a.used = [2 ^ b - 1]) (hh : a.heads = [1]) (hb32 : b ≤ MAPSIZE) :
    Represents a [(0, b)] := by
  refine ⟨?_, ?_, fun i => ?_, fun i => ?_⟩
  · intro p hp
    rw [List.mem_singleton] at hp
    rw [hp]
    exact ⟨hb1, hb2⟩
  · simp
  · rw [hu, getBit_single, Nat.testBit_two_pow_sub_one]
    simp only [List.mem_singleton, Bool.and_eq_true, decide_eq_true_eq]
    constructor
    · rintro ⟨h1, h2⟩
      exact ⟨(0, b), rfl, Nat.zero_le i, h2⟩
    · rintro ⟨p, hp, hp1, hp2⟩
      rw [hp] at hp2
      exact ⟨by omega, hp2⟩
  · rw [hh, show (1 : Nat) = 2 ^ 1 - 1 from rfl, getBit_single,
      Nat.testBit_two_pow_sub_one]
    simp only [List.mem_singleton, Bool.and_eq_true, decide_eq_true_eq]
    constructor
    · rintro ⟨h1, h2⟩
      exact ⟨(0, b), rfl, by omega⟩
    · rintro ⟨p, hp, hp1⟩
      rw [hp] at hp1
      have : i = 0 := by
        rw [← hp1]
      exact ⟨by omega, by omega⟩

lemma represents_A2 : Represents A2 [(0, 2)] :=
  represents_single A2 2 (by omega) (by decide) rfl rfl (by decide)

lemma represents_A3 : Represents A3 [(0, 4)] :=
  represents_single A3 4 (by omega) (by decide) rfl rfl (by decide)

/-! ### The spec-side run predicate, unfolded -/

lemma goodRun_iff (used : List Nat) (size num_blocks s : Nat) :
    goodRun used size num_blocks s = true ↔
      s + num_blocks ≤ size ∧
        ∀ j, s ≤ j → j < s + num_blocks → getBit used j = false := by
  unfold goodRun
  rw [Bool.and_eq_true, decide_eq_true_eq, List.all_eq_true]
  constructor
  · rintro ⟨h1, h2⟩
    refine ⟨h1, fun j hj1 hj2 => ?_⟩
    have h3 := h2 (j - s) (List.mem_range.mpr (by omega))
    rw [show s + (j - s) = j by omega, Bool.not_eq_eq_eq_not, Bool.not_true] at h3
    exact h3
  · rintro ⟨h1, h2⟩
    refine ⟨h1, fun j hj => ?_⟩
    rw [List.mem_range] at hj
    rw [h2 (s + j) (by omega) (by omega)]
    rfl

/-! ### Claim theorems -/

/-- C2: for every state and every pointer whose computed block index is in
range with its heads bit set, `deallocate` clears `heads` at that index and
clears the `used` bits of the consecutive span starting there, stopping
(without clearing) at the first position whose `used` bit is clear or whose
(post-head-clear) `heads` bit is set, or at the end of the bitmap; every
bitmap bit outside the cleared span is unchanged. -/
theorem C2_dealloc_walk_frame (a : Allocator) (ptr : Nat)
    (hidx : ptr / a.block_size % 2 ^ MAPSIZE < a.size)
    (hhead : getBit a.heads (ptr / a.block_size % 2 ^ MAPSIZE) = true) :
    ∃ e, ptr / a.block_size % 2 ^ MAPSIZE ≤ e ∧ e ≤ a.size ∧
      (∀ j, ptr / a.block_size % 2 ^ MAPSIZE ≤ j → j < e →
        getBit a.used j = true ∧
          (ptr / a.block_size % 2 ^ MAPSIZE < j → getBit a.heads j = false)) ∧
      (e = a.size ∨ getBit a.used e = false ∨
        (ptr / a.block_size % 2 ^ MAPSIZE < e ∧ getBit a.heads e = true)) ∧
      (deallocate a ptr).1 = true ∧
      (∀ j, getBit (deallocate a ptr).2.used j =
        if ptr / a.block_size % 2 ^ MAPSIZE ≤ j ∧ j < e then false
        else getBit a.used j) ∧
      (∀ j, getBit (deallocate a ptr).2.heads j =
        if j = ptr / a.block_size % 2 ^ MAPSIZE then false
        else getBit a.heads j) := by
  obtain ⟨e, h1, h2, h3, h4, hdef, h5, h6⟩ :=
    deallocate_spec a ptr _ rfl hidx hhead
  exact ⟨e, h1, h2, h3, h4, by rw [hdef], h5, h6⟩

theorem C2_witness : (deallocate A2 0).1 = true := by
  obtain ⟨e, _, _, _, _, h5, _, _⟩ :=
    C2_dealloc_walk_frame A2 0 (by decide) (by decide)
  exact h5

/-- C4 counterexample: for a zero-length request the spec-side predicate is
satisfied at start index 0, yet the scanner returns the sentinel, so the
claim fails as universally stated. -/
theorem C4_counterexample :
    goodRun [0] 4 0 0 = true ∧
    findContiguousFreeBlocks 0 [0] 4 = MAPSIZE_MAX ∧
    findContiguousFreeBlocks 0 [0] 4 ≠ 0 := by
  refine ⟨by decide, ?_, ?_⟩
  · exact findContiguousFreeBlocks_zero [0] 4
  · rw [findContiguousFreeBlocks_zero [0] 4]
    decide

/-- C4 (amended to requests of at least one block, the lengths being
`mapSize_t` values): the scanner returns the least start index of a span of
`num_blocks` clear bits inside the bitmap, or `MAPSIZE_MAX` when no such
span exists. -/
theorem C4_first_fit_scanner (num_blocks : Nat) (used : List Nat) (size : Nat)
    (hnb : 1 ≤ num_blocks) (hsize : size < 2 ^ MAPSIZE) :
    (findContiguousFreeBlocks num_blocks used size = MAPSIZE_MAX →
      ∀ s, goodRun used size num_blocks s = false) ∧
    (findContiguousFreeBlocks num_blocks used size ≠ MAPSIZE_MAX →
      goodRun used size num_blocks
          (findContiguousFreeBlocks num_blocks used size) = true ∧
        ∀ s, s < findContiguousFreeBlocks num_blocks used size →
          goodRun used size num_blocks s = false) := by
  rcases findContiguousFreeBlocks_spec used hnb hsize with ⟨hmax, hwit⟩ |
    ⟨hle, hclear, hmin⟩
  · refine ⟨fun _ s => ?_, fun hne => absurd hmax hne⟩
    cases hg : goodRun used size num_blocks s
    · rfl
    · obtain ⟨h1, h2⟩ := (goodRun_iff used size num_blocks s).mp hg
      obtain ⟨j, hj1, hj2, hset⟩ := hwit s h1
      rw [h2 j hj1 hj2] at hset
      exact absurd hset (by decide)
  · have hne : findContiguousFreeBlocks num_blocks used size ≠ MAPSIZE_MAX := by
      intro hmax
      have hM : MAPSIZE_MAX = 2 ^ MAPSIZE - 1 := rfl
      have h1 : 1 ≤ 2 ^ MAPSIZE := Nat.one_le_two_pow
      omega
    refine ⟨fun hmax => absurd hmax hne, fun _ =>
      ⟨(goodRun_iff ..).mpr ⟨hle, hclear⟩, fun s hs => ?_⟩⟩
    cases hg : goodRun used size num_blocks s
    · rfl
    · obtain ⟨h1, h2⟩ := (goodRun_iff used size num_blocks s).mp hg
      obtain ⟨j, hj1, hj2, hset⟩ := hmin s hs
      rw [h2 j hj1 hj2] at hset
      exact absurd hset (by decide)

theorem C4_witness :
    goodRun [2] 4 2 (findContiguousFreeBlocks 2 [2] 4) = true ∧
    ∀ s, s < findContiguousFreeBlocks 2 [2] 4 → goodRun [2] 4 2 s = false :=
  (C4_first_fit_scanner 2 [2] 4 (by decide) (by decide)).2 (by decide)

/-- C6: whenever the scanner reports no sufficiently long free run
(in particular whenever the needed block count exceeds the bitmap length),
`allocate` returns null and leaves the whole state, both bitmaps included,
unchanged. -/
theorem C6_alloc_failure_atomic (a : Allocator) (sz : Nat) :
    (findContiguousFreeBlocks (numBlocksOf a sz) a.used a.size = MAPSIZE_MAX →
      allocate a sz = (none, a)) ∧
    (a.size < numBlocksOf a sz →
      findContiguousFreeBlocks (numBlocksOf a sz) a.used a.size = MAPSIZE_MAX) :=
  ⟨allocate_none a sz, fun h => findContiguousFreeBlocks_gt a.used h⟩

theorem C6_witness : allocate A3 16 = (none, A3) :=
  (C6_alloc_failure_atomic A3 16).1 (by decide)

/-- C7: a `deallocate` whose in-range computed index has a clear heads bit
returns false and modifies nothing; consequently, a second `deallocate` of
the same pointer after a successful one returns false with no further
mutation. -/
theorem C7_dealloc_failure (a : Allocator) (ptr : Nat)
    (hidx : ptr / a.block_size % 2 ^ MAPSIZE < a.size) :
    (getBit a.heads (ptr / a.block_size % 2 ^ MAPSIZE) = false →
      deallocate a ptr = (false, a)) ∧
    (∀ a2 : Allocator, deallocate a ptr = (true, a2) →
      deallocate a2 ptr = (false, a2)) := by
  refine ⟨deallocate_fail a ptr, fun a2 h => ?_⟩
  cases hh : getBit a.heads (ptr / a.block_size % 2 ^ MAPSIZE)
  · rw [deallocate_fail a ptr hh] at h
    simp at h
  · obtain ⟨e, _, _, _, _, hdef, _, _⟩ := deallocate_spec a ptr _ rfl hidx hh
    rw [hdef] at h
    injection h with h1 ha2
    rw [← ha2]
    exact deallocate_fail _ ptr (getBit_clearBit_self ..)

theorem C7_witness :
    deallocate A3 16 = (false, A3) ∧
    deallocate (deallocate A2 0).2 0 = (false, (deallocate A2 0).2) :=
  ⟨(C7_dealloc_failure A3 16 (by decide)).1 (by decide),
   (C7_dealloc_failure A2 0 (by decide)).2 (deallocate A2 0).2 (by decide)⟩

/-- C8 counterexample: at `requestedSize = 2^32 - 1` with block size 16 the
`mapSize_t` sum wraps, so the computed block count is 0, not the
mathematical ceiling. -/
theorem C8_counterexample :
    numBlocksOf A1 (2 ^ 32 - 1) = 0 ∧
    (2 ^ 32 - 1 + A1.block_size - 1) / A1.block_size = 268435456 ∧
    numBlocksOf A1 (2 ^ 32 - 1) ≠ (2 ^ 32 - 1 + A1.block_size - 1) / A1.block_size := by
  refine ⟨by decide, by decide, by decide⟩

/-- C8 (amended to requests where `requestedSize + blockSize - 1` fits in
`mapSize_t`): `allocate` computes its block count as
`(requestedSize + blockSize - 1) / blockSize`, which is the mathematical
ceiling of `requestedSize / blockSize`. -/
theorem C8_rounding (a : Allocator) (sz : Nat) (hbs : 0 < a.block_size)
    (hno : sz + a.block_size ≤ 2 ^ MAPSIZE) :
    numBlocksOf a sz = (sz + a.block_size - 1) / a.block_size ∧
    sz ≤ numBlocksOf a sz * a.block_size ∧
    numBlocksOf a sz * a.block_size < sz + a.block_size := by
  have h1 : numBlocksOf a sz = (sz + a.block_size - 1) / a.block_size := by
    unfold numBlocksOf
    have h2 : 1 ≤ 2 ^ MAPSIZE := Nat.one_le_two_pow
    have h3 : sz + a.block_size + (2 ^ MAPSIZE - 1)
        = 2 ^ MAPSIZE + (sz + a.block_size - 1) := by omega
    rw [h3, Nat.add_mod_left, Nat.mod_eq_of_lt (by omega)]
  have hd := Nat.div_add_mod (sz + a.block_size - 1) a.block_size
  have hm := Nat.mod_lt (sz + a.block_size - 1) hbs
  rw [h1, Nat.mul_comm]
  omega

theorem C8_witness :
    numBlocksOf A1 18 = (18 + A1.block_size - 1) / A1.block_size ∧
    18 ≤ numBlocksOf A1 18 * A1.block_size ∧
    numBlocksOf A1 18 * A1.block_size < 18 + A1.block_size :=
  C8_rounding A1 18 (by decide) (by decide)

/-- C9: a zero-byte request yields a block count of zero, the scanner never
succeeds on a zero-length request, and `allocate` returns null leaving the
state unchanged, regardless of available capacity. -/
theorem C9_zero_alloc (a : Allocator) (hbs : 0 < a.block_size)
    (hbs32 : a.block_size < 2 ^ MAPSIZE) :
    numBlocksOf a 0 = 0 ∧
    (∀ used size, findContiguousFreeBlocks 0 used size = MAPSIZE_MAX) ∧
    allocate a 0 = (none, a) := by
  have h0 : numBlocksOf a 0 = 0 := by
    unfold numBlocksOf
    have h2 : 1 ≤ 2 ^ MAPSIZE := Nat.one_le_two_pow
    have h3 : 0 + a.block_size + (2 ^ MAPSIZE - 1)
        = 2 ^ MAPSIZE + (a.block_size - 1) := by omega
    rw [h3, Nat.add_mod_left, Nat.mod_eq_of_lt (by omega)]
    exact Nat.div_eq_of_lt (by omega)
  refine ⟨h0, fun used size => findContiguousFreeBlocks_zero used size, ?_⟩
  apply allocate_none
  rw [h0]
  exact findContiguousFreeBlocks_zero ..

theorem C9_witness :
    numBlocksOf A1 0 = 0 ∧
    (∀ used size, findContiguousFreeBlocks 0 used size = MAPSIZE_MAX) ∧
    allocate A1 0 = (none, A1) :=
  C9_zero_alloc A1 (by decide) (by decide)

/-- C3: every state reachable from the all-clear bitmaps by `allocate` and
`deallocate` calls satisfies `heads[i] ⇒ used[i]` for every index, and its
live allocations form disjoint runs in which exactly one block — the
lowest-indexed one — carries a set `heads` bit. -/
theorem C3_bitmap_invariants (a : Allocator) (h : Reachable a) :
    (∀ i, getBit a.heads i = true → getBit a.used i = true) ∧
    ∃ L, Represents a L ∧
      ∀ p ∈ L, getBit a.heads p.1 = true ∧
        ∀ j, p.1 < j → j < p.2 → getBit a.heads j = false := by
  obtain ⟨hW, L, hR⟩ := reachable_inv a h
  refine ⟨fun i => rep_heads_imp_used hR i, L, hR, fun p hp => ?_⟩
  exact ⟨(hR.2.2.2 p.1).mpr ⟨p, hp, rfl⟩,
    fun j h1 h2 => rep_no_interior_head hR hp j h1 h2⟩

theorem C3_witness : getBit (allocate A1 17).2.used 0 = true := by
  obtain ⟨h1, _⟩ := C3_bitmap_invariants (allocate A1 17).2
    (Reachable.alloc A1 17 (Reachable.base A1 (by decide)
      (fun i => getBit_zero_word i) (fun i => getBit_zero_word i)))
  exact h1 0 (by decide)

/-- C1: from any well-formed state whose bitmaps represent a set of live
runs, a successful `allocate` followed immediately by `deallocate` of the
returned pointer succeeds and restores both bitmaps bit for bit. -/
theorem C1_round_trip (a : Allocator) (L : List (Nat × Nat)) (sz p : Nat)
    (a2 : Allocator) (hW : Wf a) (hR : Represents a L)
    (halloc : allocate a sz = (some p, a2)) :
    (deallocate a2 p).1 = true ∧
    (∀ j, getBit (deallocate a2 p).2.used j = getBit a.used j) ∧
    (∀ j, getBit (deallocate a2 p).2.heads j = getBit a.heads j) := by
  obtain ⟨s, nb, hnb, hs, hnb1, hle, hclear, hp, ha2, hu, hh⟩ :=
    allocate_some a sz hW halloc
  obtain ⟨hbs, hbs32, hsize, hregion, hulen, hhlen⟩ := hW
  have hbs2 : a2.block_size = a.block_size := by rw [ha2]
  have hsize2 : a2.size = a.size := by rw [ha2]
  have hidx : p / a2.block_size % 2 ^ MAPSIZE = s := by
    rw [hbs2, hp, Nat.mul_div_cancel _ hbs]
    exact Nat.mod_eq_of_lt (by omega)
  have hhead2 : getBit a2.heads (p / a2.block_size % 2 ^ MAPSIZE) = true := by
    rw [hidx, hh s]
    simp
  have hidx2 : p / a2.block_size % 2 ^ MAPSIZE < a2.size := by
    rw [hidx, hsize2]
    omega
  obtain ⟨e, he1, he2, hrun, hstop, hdef, hu2, hh2⟩ :=
    deallocate_spec a2 p _ rfl hidx2 hhead2
  rw [hidx] at he1 hrun hstop
  have hheads_clear : ∀ j, s ≤ j → j < s + nb → getBit a.heads j = false := by
    intro j hj1 hj2
    cases hcase : getBit a.heads j
    · rfl
    · have hused := rep_heads_imp_used hR j hcase
      rw [hclear j hj1 hj2] at hused
      exact absurd hused (by decide)
  have heq : e = s + nb := by
    refine walk_stop_unique
      (C := fun j => getBit a2.used j = true ∧ (s < j → getBit a2.heads j = false))
      he1 he2 (by omega) (by omega) hrun ?_ ?_ ?_
    · intro j hj1 hj2
      refine ⟨by rw [hu j]; simp [hj1, hj2], fun hsj => ?_⟩
      rw [hh j]
      have hjs : ¬(j = s) := by omega
      simp only [hjs, decide_eq_false, Bool.false_or]
      exact hheads_clear j hj1 hj2
    · rcases hstop with hcase | hcase | hcase
      · exact Or.inl hcase
      · refine Or.inr fun hC => ?_
        rw [hC.1] at hcase
        exact absurd hcase (by decide)
      · refine Or.inr fun hC => ?_
        rw [hC.2 hcase.1] at hcase
        exact absurd hcase.2 (by decide)
    · by_cases hend : s + nb = a2.size
      · exact Or.inl hend
      · refine Or.inr fun hC => ?_
        have husedtrue : getBit a.used (s + nb) = true := by
          have := hC.1
          rw [hu (s + nb)] at this
          simpa using this
        have hheadtrue : getBit a.heads (s + nb) = true := by
          refine rep_span_start_head hR (s + nb) husedtrue (Or.inr ?_)
          exact hclear (s + nb - 1) (by omega) (by omega)
        have hfalse := hC.2 (by omega)
        rw [hh (s + nb)] at hfalse
        have hne : ¬(s + nb = s) := by omega
        simp only [hne, decide_eq_false, Bool.false_or] at hfalse
        rw [hheadtrue] at hfalse
        exact absurd hfalse (by decide)
  subst heq
  refine ⟨by rw [hdef], fun j => ?_, fun j => ?_⟩
  · rw [hu2 j, hidx]
    by_cases hin : s ≤ j ∧ j < s + nb
    · rw [if_pos hin, hclear j hin.1 hin.2]
    · rw [if_neg hin, hu j]
      have hd : ¬(s ≤ j ∧ j < s + nb) := hin
      simp [hd]
  · rw [hh2 j, hidx]
    by_cases hj : j = s
    · rw [if_pos hj, hj, hheads_clear s (by omega) (by omega)]
    · rw [if_neg hj, hh j]
      simp [hj]

theorem C1_witness : (deallocate (allocate A1 16).2 0).1 = true := by
  obtain ⟨h1, _, _⟩ := C1_round_trip A1 [] 16 0 (allocate A1 16).2
    (by decide) represents_A1 (by decide)
  exact h1

/-- C10: `deallocate` derives the block index by integer division with no
alignment check, so a pointer to any byte inside the first block of a live
run is accepted: it returns true and frees that whole run. -/
theorem C10_interior_pointer (a : Allocator) (L : List (Nat × Nat))
    (r : Nat × Nat) (d : Nat) (hW : Wf a) (hR : Represents a L)
    (hmem : r ∈ L) (hd : d < a.block_size) :
    (deallocate a (r.1 * a.block_size + d)).1 = true ∧
    (∀ j, getBit (deallocate a (r.1 * a.block_size + d)).2.used j =
      if r.1 ≤ j ∧ j < r.2 then false else getBit a.used j) ∧
    (∀ j, getBit (deallocate a (r.1 * a.block_size + d)).2.heads j =
      if j = r.1 then false else getBit a.heads j) := by
  obtain ⟨hbs, hbs32, hsize, hregion, hulen, hhlen⟩ := hW
  have hr12 := (hR.1 r hmem).1
  have hrs := (hR.1 r hmem).2
  have hidx : (r.1 * a.block_size + d) / a.block_size % 2 ^ MAPSIZE = r.1 := by
    rw [Nat.add_comm, Nat.mul_comm, Nat.add_mul_div_left _ _ hbs,
      Nat.div_eq_of_lt hd, Nat.zero_add]
    exact Nat.mod_eq_of_lt (by omega)
  have hhead : getBit a.heads ((r.1 * a.block_size + d) / a.block_size
      % 2 ^ MAPSIZE) = true := by
    rw [hidx]
    exact (hR.2.2.2 r.1).mpr ⟨r, hmem, rfl⟩
  obtain ⟨e, he1, he2, hrun, hstop, hdef, hu2, hh2⟩ :=
    deallocate_spec a (r.1 * a.block_size + d) _ rfl (by rw [hidx]; omega) hhead
  rw [hidx] at he1 hrun hstop
  have heq : e = r.2 := by
    refine walk_stop_unique
      (C := fun j => getBit a.used j = true ∧ (r.1 < j → getBit a.heads j = false))
      he1 he2 (by omega) hrs hrun ?_ ?_ ?_
    · intro j hj1 hj2
      exact ⟨(hR.2.2.1 j).mpr ⟨r, hmem, hj1, hj2⟩,
        fun hlt => rep_no_interior_head hR hmem j hlt hj2⟩
    · rcases hstop with hcase | hcase | hcase
      · exact Or.inl hcase
      · refine Or.inr fun hC => ?_
        rw [hC.1] at hcase
        exact absurd hcase (by decide)
      · refine Or.inr fun hC => ?_
        rw [hC.2 hcase.1] at hcase
        exact absurd hcase.2 (by decide)
    · by_cases hend : r.2 = a.size
      · exact Or.inl hend
      · refine Or.inr fun hC => ?_
        have hb := rep_boundary_head hR hmem hC.1
        rw [hC.2 hr12] at hb
        exact absurd hb (by decide)
  subst heq
  exact ⟨by rw [hdef], fun j => by rw [hu2 j, hidx], fun j => by rw [hh2 j, hidx]⟩

theorem C10_witness : (deallocate A2 5).1 = true := by
  obtain ⟨h1, _, _⟩ := C10_interior_pointer A2 [(0, 2)] (0, 2) 5
    (by decide) represents_A2 (List.mem_singleton.mpr rfl) (by decide)
  exact h1

/-- C5 counterexample: with `blockSize = 1`, `totalSize = 1` (so
`blockSize > 0` and `totalSize ≥ blockSize`) the 8-byte bitmap region does
not fit in the buffer, the `mapSize_t` subtraction wraps, and the recorded
capacity is 4294967289 blocks — the three spans are not inside the caller's
buffer as the claim states. -/
theorem C5_counterexample :
    0 < 1 ∧ 1 ≤ 1 ∧
    (initAllocator 1 1).bitmaps_size = 4294967289 ∧
    specBitmapRegionBytes 1 1 = 8 ∧
    ¬((initAllocator 1 1).memory_head_off
        + (initAllocator 1 1).memory_size ≤ 1) := by
  refine ⟨by decide, by decide, by decide, by decide, by decide⟩

/-- C5 (amended to parameters where the bitmap region fits the buffer and
the word-count arithmetic cannot wrap): `initAllocator` lays out the used
bitmap at the buffer base, the heads bitmap immediately after it, and the
data region immediately after that, three adjacent spans inside the
caller's buffer, and records the capacity
`(totalSize - bitmapRegionBytes) / blockSize`. -/
theorem C5_init_layout (block_size size : Nat) (h1 : 0 < block_size)
    (h2 : block_size ≤ size) (h3 : size + MAPSIZE ≤ 2 ^ MAPSIZE)
    (h4 : specBitmapRegionBytes block_size size ≤ size) :
    (initAllocator block_size size).used_off = 0 ∧
    (initAllocator block_size size).used_off
        + specBitmapRegionBytes block_size size / 2
      = (initAllocator block_size size).heads_off ∧
    (initAllocator block_size size).heads_off
        + specBitmapRegionBytes block_size size / 2
      = (initAllocator block_size size).memory_head_off ∧
    (initAllocator block_size size).memory_head_off
      = specBitmapRegionBytes block_size size ∧
    (initAllocator block_size size).bitmaps_size
      = (size - specBitmapRegionBytes block_size size) / block_size ∧
    (initAllocator block_size size).memory_size
      = (initAllocator block_size size).bitmaps_size * block_size ∧
    (initAllocator block_size size).memory_head_off
        + (initAllocator block_size size).memory_size ≤ size := by
  have hM : MAPSIZE = 32 := rfl
  have hP : (2 : Nat) ^ MAPSIZE = 4294967296 := rfl
  have hDle : size / block_size ≤ size := Nat.div_le_self ..
  rw [hP, hM] at h3
  have hsz : size < 2 ^ MAPSIZE := by
    rw [hP]
    omega
  have hD0 : 0 ≤ size / block_size := Nat.zero_le _
  have hofl : size / block_size + MAPSIZE - 1 < 2 ^ MAPSIZE := by
    rw [hP, hM]
    omega
  have hmod1 : (size / block_size + MAPSIZE - 1) % 2 ^ MAPSIZE
      = size / block_size + (MAPSIZE - 1) := by
    rw [Nat.mod_eq_of_lt hofl, hM]
    omega
  have hr32 := Nat.div_mul_le_self (size / block_size + (MAPSIZE - 1)) MAPSIZE
  have hB8 : specBitmapRegionBytes block_size size < 2 ^ MAPSIZE := by
    unfold specBitmapRegionBytes
    rw [hM] at hr32
    rw [hP, hM]
    omega
  have hcode_b : (size / block_size + MAPSIZE - 1) % 2 ^ MAPSIZE / MAPSIZE * 2 * 4
        % 2 ^ MAPSIZE
      = specBitmapRegionBytes block_size size := by
    rw [hmod1]
    exact Nat.mod_eq_of_lt hB8
  have hsub : (size + (2 ^ MAPSIZE - specBitmapRegionBytes block_size size))
        % 2 ^ MAPSIZE
      = size - specBitmapRegionBytes block_size size := by
    have h5 : size + (2 ^ MAPSIZE - specBitmapRegionBytes block_size size)
        = 2 ^ MAPSIZE + (size - specBitmapRegionBytes block_size size) := by omega
    rw [h5, Nat.add_mod_left, Nat.mod_eq_of_lt (by omega)]
  have hcap : (initAllocator block_size size).bitmaps_size
      = (size - specBitmapRegionBytes block_size size) / block_size := by
    show (size + (2 ^ MAPSIZE - (size / block_size + MAPSIZE - 1) % 2 ^ MAPSIZE
        / MAPSIZE * 2 * 4 % 2 ^ MAPSIZE)) % 2 ^ MAPSIZE / block_size = _
    rw [hcode_b, hsub]
  have hcapmul := Nat.div_mul_le_self (size - specBitmapRegionBytes block_size size)
    block_size
  have hmem : (initAllocator block_size size).memory_size
      = (size - specBitmapRegionBytes block_size size) / block_size
        * block_size := by
    show (size + (2 ^ MAPSIZE - (size / block_size + MAPSIZE - 1) % 2 ^ MAPSIZE
        / MAPSIZE * 2 * 4 % 2 ^ MAPSIZE)) % 2 ^ MAPSIZE / block_size * block_size
        % 2 ^ MAPSIZE = _
    rw [hcode_b, hsub]
    exact Nat.mod_eq_of_lt (by omega)
  have hBeven : specBitmapRegionBytes block_size size
      = (size / block_size + (MAPSIZE - 1)) / MAPSIZE * 8 := by
    unfold specBitmapRegionBytes
    omega
  have hheads : (initAllocator block_size size).heads_off
      = specBitmapRegionBytes block_size size / 2 := by
    show 0 + (size / block_size + MAPSIZE - 1) % 2 ^ MAPSIZE / MAPSIZE * 2 * 4
        % 2 ^ MAPSIZE / 2 = _
    rw [hcode_b]
    omega
  have hhead_off : (initAllocator block_size size).memory_head_off
      = specBitmapRegionBytes block_size size := by
    show 0 + (size / block_size + MAPSIZE - 1) % 2 ^ MAPSIZE / MAPSIZE * 2 * 4
        % 2 ^ MAPSIZE / 2 + (size / block_size + MAPSIZE - 1) % 2 ^ MAPSIZE
        / MAPSIZE * 2 * 4 % 2 ^ MAPSIZE / 2 = _
    rw [hcode_b, hBeven]
    omega
  have hu0 : (initAllocator block_size size).used_off = 0 := rfl
  refine ⟨hu0, ?_, ?_, hhead_off, hcap, ?_, ?_⟩
  · rw [hu0, hheads, Nat.zero_add]
  · rw [hheads, hhead_off, hBeven]
    omega
  · rw [hmem, hcap]
  · rw [hmem, hhead_off]
    omega

theorem C5_witness :
    (initAllocator 16 128).bitmaps_size
        = (128 - specBitmapRegionBytes 16 128) / 16 ∧
    (initAllocator 16 128).memory_head_off = specBitmapRegionBytes 16 128 ∧
    (initAllocator 16 128).memory_head_off
        + (initAllocator 16 128).memory_size ≤ 128 := by
  obtain ⟨_, _, _, h4, h5, _, h7⟩ :=
    C5_init_layout 16 128 (by decide) (by decide) (by decide) (by decide)
  exact ⟨h5, h4, h7⟩

end BitmapAllocator
